import Mathlib

/-!
Verification of the mogilefsd-rs tracker core against its specification.

This file shallowly embeds the parts of the repository that the claims
concern:

* the in-memory backend (`src/server/src/mem/mem_backend.rs`) and its
  domain model (`src/server/src/mem/model.rs`),
* the tracker dispatcher's `create_open` and `list_keys` handlers
  (`src/server/src/net/tracker/mod.rs`),
* the client's response parser (`src/client/src/lib.rs`).

Rust `String`/`&str` values are modelled as Lean `String`s.  Rust compares
strings bytewise; since UTF-8 encoding preserves codepoint order, bytewise
order on valid UTF-8 strings coincides with lexicographic order on the
codepoint sequence, which is what `ltB` below computes over `String.data`.
`BTreeMap` is modelled as an association list that is sorted strictly
ascending by key (the well-formedness predicate `sortedB`); `HashMap` is
modelled as an association list with replace-on-insert semantics (its
iteration order is never observed by the embedded code).  Mutation is
modelled by explicit state passing, `MogResult<T>` by `Except MogError T`,
and byte sequences by `List Nat`.
-/

/-- Lexicographic strict order on codepoint lists: the order Rust's `Ord`
for `str` induces on the decoded characters of valid UTF-8 strings. -/
def ltB : List Char → List Char → Bool
  | _, [] => false
  | [], _ :: _ => true
  | a :: as, b :: bs => a.toNat < b.toNat || (a = b && ltB as bs)

/-- Rust's `<` on strings (bytewise lexicographic). -/
def strLt (a b : String) : Bool := ltB a.data b.data

/-- Rust's `<=` on strings, as the negation of the reversed strict order. -/
def strLe (a b : String) : Bool := !(strLt b a)

/-- Character-list prefix test. -/
def preB : List Char → List Char → Bool
  | [], _ => true
  | _ :: _, [] => false
  | a :: as, b :: bs => a = b && preB as bs

/-- Rust's `str::starts_with(pat)`: `strStartsWith s pat` is true when `pat`
is a prefix of `s`. -/
def strStartsWith (s pat : String) : Bool := preB pat.data s.data

/-- Rust's `str::split(sep)` on character lists: splits at every separator,
keeping empty pieces (`"".split sep` is `[""]`, `"a//b"` gives `["a","","b"]`). -/
def splitB (sep : Char) : List Char → List (List Char)
  | [] => [[]]
  | c :: rest =>
    if c = sep then [] :: splitB sep rest
    else match splitB sep rest with
      | [] => [[c]]
      | h :: t => (c :: h) :: t

/-- Rust's `key.split("/")`, producing strings. -/
def splitSlash (s : String) : List String := (splitB '/' s.data).map String.mk

/-- Strictly-ascending-by-key check for an association list: the invariant a
`BTreeMap<String, V>` iteration always satisfies. -/
def sortedB {β : Type} : List (String × β) → Bool
  | [] => true
  | [_] => true
  | p :: q :: rest => strLt p.1 q.1 && sortedB (q :: rest)

/-- Replace-or-insert into an association list: the semantics of
`HashMap::insert` as far as `get`/`contains_key` can observe. -/
def upsert {β : Type} (k : String) (v : β) : List (String × β) → List (String × β)
  | [] => [(k, v)]
  | p :: rest => if p.1 = k then (k, v) :: rest else p :: upsert k v rest

/-- `BTreeMap::insert` on a sorted association list: place the new entry at
its ordered position, replacing an entry with an equal key. -/
def insertSorted {β : Type} (k : String) (v : β) : List (String × β) → List (String × β)
  | [] => [(k, v)]
  | p :: rest =>
    if strLt k p.1 then (k, v) :: p :: rest
    else if k = p.1 then (k, v) :: rest
    else p :: insertSorted k v rest

/-- `BTreeMap::remove`: drop the (first) entry with the given key. -/
def removeSorted {β : Type} (k : String) : List (String × β) → List (String × β)
  | [] => []
  | p :: rest => if p.1 = k then rest else p :: removeSorted k rest

/-- The error taxonomy (`MogError` in `mogilefs_common`); payload shapes
follow the constructor uses visible in the sources under `src/`. -/
inductive MogError : Type
  | UnknownCommand (m : Option String)
  | UnknownKey (k : String)
  | KeyExists (k : String)
  | DomainExists (d : String)
  | NoDomain
  | NoKey
  | UnregDomain (d : String)
  | NoContent (k : String)
  | NoPath
  | NoTrackers
  | StorageError (m : Option String)
  | BadResponse
  | Io
  | Utf8
  | Other (m : String) (payload : Option String)
deriving DecidableEq

/-- `MogResult<T>`. -/
abbrev MogResult (α : Type) := Except MogError α

deriving instance DecidableEq for Except

/-- A storage URL, kept as its scheme-plus-authority part and its path
segments (the only parts `url_for_key` manipulates). -/
structure Url where
  base : String
  segs : List String
deriving DecidableEq

/-- Joining path segments with `/` (Rust's `Vec::join("/")`). -/
def joinSlash : List String → String
  | [] => ""
  | [s] => s
  | s :: rest => s ++ "/" ++ joinSlash rest

/-- Rendering a URL (`Url::to_string` after `set_path`). -/
def Url.render (u : Url) : String := u.base ++ "/" ++ joinSlash u.segs

/-- `url_for_key` from `mem_backend.rs`: base path segments, then literal
`d`, the domain, literal `k`, then the key split on `/`; leading empty
segments are trimmed. -/
def urlForKey (base : Url) (domain key : String) : Url :=
  { base with
    segs := ((base.segs ++ ["d", domain, "k"]) ++ splitSlash key).dropWhile (· = "") }

/-- `MemFileInfo` from `model.rs`; `mtime` is an abstract timestamp. -/
structure MemFileInfo where
  fid : Nat
  key : String
  content : Option (List Nat)
  size : Option Nat
  mtime : Option Nat
deriving DecidableEq

/-- `MemFileInfo::new`: a reserved file, nothing populated yet. -/
def MemFileInfo.new (fid : Nat) (key : String) : MemFileInfo :=
  { fid := fid, key := key, content := none, size := none, mtime := none }

/-- `MemDomain` from `model.rs`: a name and a `BTreeMap` from key to file,
modelled as a (sorted) association list. -/
structure MemDomain where
  name : String
  files : List (String × MemFileInfo)
deriving DecidableEq

/-- `MemDomain::new`. -/
def MemDomain.new (name : String) : MemDomain := { name := name, files := [] }

/-- Well-formedness: the association list really is a `BTreeMap` iteration,
i.e. strictly ascending by key. -/
def MemDomain.WF (d : MemDomain) : Prop := sortedB d.files = true

instance (d : MemDomain) : Decidable d.WF :=
  inferInstanceAs (Decidable (sortedB d.files = true))

/-- `MemDomain::file`. -/
def MemDomain.file (d : MemDomain) (key : String) : Option MemFileInfo :=
  d.files.lookup key

/-- `MemDomain::add_file`: `BTreeMap::insert`, silently replacing any entry
already stored under the key.  (In the source it returns
`MogResult<&MemFileInfo>` but is always `Ok`; only the state matters.) -/
def MemDomain.add_file (d : MemDomain) (key : String) (info : MemFileInfo) : MemDomain :=
  { d with files := insertSorted key info d.files }

/-- `MemDomain::remove_file`: returns the removed record, if any, next to
the new state. -/
def MemDomain.remove_file (d : MemDomain) (key : String) :
    Option MemFileInfo × MemDomain :=
  (d.files.lookup key, { d with files := removeSorted key d.files })

/-- `MemDomain::rename` from `model.rs`: target key present means
`KeyExists`; source key absent means `UnknownKey`; otherwise move the
record, rewriting its `key` field. -/
def MemDomain.rename (d : MemDomain) (fromKey toKey : String) :
    MogResult Unit × MemDomain :=
  if (d.files.lookup toKey).isSome then
    (.error (.KeyExists toKey), d)
  else
    match d.files.lookup fromKey with
    | none => (.error (.UnknownKey fromKey), d)
    | some fi =>
      (.ok (),
       { d with files := insertSorted toKey { fi with key := toKey }
                           (removeSorted fromKey d.files) })

/-- Typed requests (`mogilefs_common::requests`), with the fields the
sources under `src/` read.  `pre` stands for the request's prefix
argument and `cls` for its class argument. -/
structure CreateDomain where
  domain : String
deriving DecidableEq

structure CreateOpen where
  domain : String
  cls : Option String
  key : String
  multi_dest : Bool
  size : Option Nat
deriving DecidableEq

structure CreateOpenResponse where
  fid : Nat
  paths : List (Nat × Url)
deriving DecidableEq

structure FileInfoReq where
  domain : String
  key : String
deriving DecidableEq

structure FileInfoResponse where
  fid : Nat
  devcount : Nat
  length : Nat
  domain : String
  cls : String
  key : String
deriving DecidableEq

structure GetPathsReq where
  domain : String
  key : String
deriving DecidableEq

structure DeleteReq where
  domain : String
  key : String
deriving DecidableEq

structure RenameReq where
  domain : String
  from_key : String
  to_key : String
deriving DecidableEq

structure ListKeysReq where
  domain : String
  pre : Option String
  after : Option String
  limit : Option Nat
deriving DecidableEq

structure ListKeysResponse where
  keys : List String
deriving DecidableEq

/-- `MemBackend` from `mem_backend.rs`: the domain map (a `HashMap`), the
pre-built empty domain that read-side lookups of unknown domains fall back
to, and the storage base URL. -/
structure MemBackend where
  domains : List (String × MemDomain)
  empty_domain : MemDomain
  base_url : Url
deriving DecidableEq

/-- `MemBackend::new`. -/
def MemBackend.new (storage_base_url : Url) : MemBackend :=
  { domains := [], empty_domain := MemDomain.new "", base_url := storage_base_url }

/-- `MemBackend::domain`: read-side lookup, falling back to the empty
domain (the commented-out `UnregDomain` strict mode is not active). -/
def MemBackend.domain (b : MemBackend) (domain_name : String) : MogResult MemDomain :=
  .ok ((b.domains.lookup domain_name).getD b.empty_domain)

/-- `MemBackend::domain_mut`'s get-or-insert step: the domain the mutating
operation will act on, freshly created when absent. -/
def MemBackend.domainMutGet (b : MemBackend) (domain_name : String) : MemDomain :=
  (b.domains.lookup domain_name).getD (MemDomain.new domain_name)

/-- Write back the (possibly mutated) domain that `domain_mut` handed out:
`entry(name).or_insert(..)` materialises the entry in the `HashMap` even
when the operation afterwards fails. -/
def MemBackend.putDomain (b : MemBackend) (domain_name : String) (d : MemDomain) : MemBackend :=
  { b with domains := upsert domain_name d b.domains }

/-- `MemBackend::url_for_key`. -/
def MemBackend.url_for_key (b : MemBackend) (domain key : String) : Url :=
  urlForKey b.base_url domain key

/-- `MemBackend::create_domain`: fail with `DomainExists` on a duplicate,
otherwise insert a fresh empty domain. -/
def MemBackend.create_domain (b : MemBackend) (req : CreateDomain) :
    MogResult CreateDomain × MemBackend :=
  if (b.domains.lookup req.domain).isSome then
    (.error (.DomainExists req.domain), b)
  else
    (.ok { domain := req.domain },
     { b with domains := upsert req.domain (MemDomain.new req.domain) b.domains })

/-- `MemBackend::create_open`: the fid is seeded from the current number of
domains plus one (computed before `domain_mut` may insert a new domain); a
reserved file is stored under the key and one destination `(1, url)` is
returned. -/
def MemBackend.create_open (b : MemBackend) (req : CreateOpen) :
    MogResult CreateOpenResponse × MemBackend :=
  let fid := b.domains.length + 1
  let url := b.url_for_key req.domain req.key
  let d := b.domainMutGet req.domain
  let d2 := d.add_file req.key (MemFileInfo.new fid req.key)
  (.ok { fid := fid, paths := [(1, url)] }, b.putDomain req.domain d2)

/-- `MemBackend::file_info`: absent key yields `UnknownKey`; a present key
always succeeds, with `length` read as `size.unwrap_or(0)`. -/
def MemBackend.file_info (b : MemBackend) (req : FileInfoReq) : MogResult FileInfoResponse :=
  match b.domain req.domain with
  | .error e => .error e
  | .ok d =>
    match d.file req.key with
    | none => .error (.UnknownKey req.key)
    | some file_info =>
      .ok { fid := file_info.fid
            devcount := 1
            length := file_info.size.getD 0
            domain := req.domain
            cls := "default"
            key := file_info.key }

/-- `MemBackend::get_paths`: absent key yields `UnknownKey`; otherwise one
path, computed by `url_for_key`. -/
def MemBackend.get_paths (b : MemBackend) (req : GetPathsReq) : MogResult (List Url) :=
  match b.domain req.domain with
  | .error e => .error e
  | .ok d =>
    match d.file req.key with
    | none => .error (.UnknownKey req.key)
    | some _ => .ok [b.url_for_key req.domain req.key]

/-- `MemBackend::delete`: `domain_mut` (which materialises a missing
domain), then remove the file, `UnknownKey` when it was not there. -/
def MemBackend.delete (b : MemBackend) (req : DeleteReq) : MogResult Unit × MemBackend :=
  let d := b.domainMutGet req.domain
  let rd := d.remove_file req.key
  let b2 := b.putDomain req.domain rd.2
  match rd.1 with
  | some _ => (.ok (), b2)
  | none => (.error (.UnknownKey req.key), b2)

/-- `MemBackend::rename`: `domain_mut` then `MemDomain::rename`. -/
def MemBackend.rename (b : MemBackend) (req : RenameReq) : MogResult Unit × MemBackend :=
  let d := b.domainMutGet req.domain
  let rd := d.rename req.from_key req.to_key
  (rd.1, b.putDomain req.domain rd.2)

/-- `MemBackend::list_keys`: iterate the domain's files in key order, keep
keys starting with the prefix, skip while the key is at most `after`, and
take at most `limit` (default 1000, no upper cap). -/
def MemBackend.list_keys (b : MemBackend) (req : ListKeysReq) : MogResult ListKeysResponse :=
  let after_key := req.after.getD ""
  let pre := req.pre.getD ""
  let limit := req.limit.getD 1000
  match b.domain req.domain with
  | .error e => .error e
  | .ok d =>
    .ok { keys := ((((d.files.filter (fun p => strStartsWith p.1 pre)).dropWhile
                      (fun p => strLe p.1 after_key)).take limit).map (fun p => p.1)) }

/-- `MemBackend::store_bytes_content`: `file_mut` goes through `domain_mut`
(materialising a missing domain); an absent key yields `UnknownKey`,
otherwise size, content and mtime are populated in place. -/
def MemBackend.store_bytes_content (b : MemBackend) (domain key : String)
    (content : List Nat) (now : Nat) : MogResult Unit × MemBackend :=
  let d := b.domainMutGet domain
  match d.files.lookup key with
  | none => (.error (.UnknownKey key), b.putDomain domain d)
  | some fi =>
    let fi2 := { fi with size := some content.length
                         content := some content
                         mtime := some now }
    (.ok (), b.putDomain domain { d with files := insertSorted key fi2 d.files })

/-- `MemBackend::get_content`: absent key yields `UnknownKey`; a present
key without content yields `NoContent`; otherwise the stored bytes are
written out (modelled as returning them). -/
def MemBackend.get_content (b : MemBackend) (domain key : String) : MogResult (List Nat) :=
  match b.domain domain with
  | .error e => .error e
  | .ok d =>
    match d.file key with
    | none => .error (.UnknownKey key)
    | some fi =>
      match fi.content with
      | some bytes => .ok bytes
      | none => .error (.NoContent key)

/-- `MemBackend::file_metadata` (the storage capability): requires both
`size` and `mtime` populated, else `NoContent`. -/
def MemBackend.file_metadata (b : MemBackend) (domain key : String) :
    MogResult (Nat × Nat) :=
  match b.domain domain with
  | .error e => .error e
  | .ok d =>
    match d.file key with
    | none => .error (.UnknownKey key)
    | some fi =>
      match fi.size, fi.mtime with
      | some size, some mtime => .ok (size, mtime)
      | _, _ => .error (.NoContent key)

/-- `Request::args_hash().get(k)`: the hash map is built by
`*m.entry(k).or_insert(v) = v`, so with duplicate argument keys the last
value wins. -/
def argLast (args : List (String × String)) (k : String) : Option String :=
  args.foldl (fun acc p => if p.1 = k then some p.2 else acc) none

/-- The `Tracker::create_open` handler from `net/tracker/mod.rs`, as a
function of the request arguments and of the backend's `create_open`
result (a list of destination URLs): it renders `dev_count` and, for each
destination, `devid_i` (the 1-based index) and `path_i`.  No `fid` is
rendered. -/
def trackerCreateOpen (args : List (String × String))
    (backendUrls : MogResult (List Url)) : MogResult (List (String × String)) :=
  match argLast args "domain" with
  | none => .error .NoDomain
  | some _ =>
    match argLast args "key" with
    | none => .error .NoKey
    | some _ =>
      match backendUrls with
      | .error e => .error e
      | .ok urls =>
        .ok (("dev_count", toString urls.length) ::
             (urls.enum.map (fun p =>
               [("devid_" ++ toString (p.1 + 1), toString (p.1 + 1)),
                ("path_" ++ toString (p.1 + 1), p.2.render)])).flatten)

/-- Percent-decoding of a byte sequence (the `url` crate's lenient
`percent_decode`): a `%` followed by two hex digits becomes the denoted
byte; otherwise bytes pass through unchanged. -/
def hexVal (b : Nat) : Option Nat :=
  if 48 ≤ b ∧ b ≤ 57 then some (b - 48)
  else if 65 ≤ b ∧ b ≤ 70 then some (b - 55)
  else if 97 ≤ b ∧ b ≤ 102 then some (b - 87)
  else none

def percentDecode : List Nat → List Nat
  | 37 :: h1 :: h2 :: rest =>
    match hexVal h1, hexVal h2 with
    | some a, some b => (a * 16 + b) :: percentDecode rest
    | _, _ => 37 :: percentDecode (h1 :: h2 :: rest)
  | b :: rest => b :: percentDecode rest
  | [] => []

/-- Continuation-byte test for UTF-8. -/
def utf8Cont (b : Nat) : Bool := 128 ≤ b && b ≤ 191

/-- Allowed second byte of a three-byte sequence (surrogates excluded). -/
def utf8Cont3 (b b2 : Nat) : Bool :=
  if b = 224 then 160 ≤ b2 && b2 ≤ 191
  else if b = 237 then 128 ≤ b2 && b2 ≤ 159
  else utf8Cont b2

/-- Allowed second byte of a four-byte sequence (codepoints capped at
`0x10FFFF`). -/
def utf8Cont4 (b b2 : Nat) : Bool :=
  if b = 240 then 144 ≤ b2 && b2 ≤ 191
  else if b = 244 then 128 ≤ b2 && b2 ≤ 143
  else utf8Cont b2

/-- The replacement character emitted for invalid sequences. -/
def replChar : Char := Char.ofNat 0xFFFD

/-- Lossy UTF-8 decoding of a byte sequence (`String::from_utf8_lossy`):
well-formed sequences decode to their codepoint, ill-formed ones are
replaced following the maximal-subpart policy Rust implements. -/
def utf8Lossy : List Nat → List Char
  | [] => []
  | b :: rest =>
    if b < 128 then Char.ofNat b :: utf8Lossy rest
    else if b < 194 then replChar :: utf8Lossy rest
    else if b ≤ 223 then
      match rest with
      | [] => [replChar]
      | b2 :: rest2 =>
        if utf8Cont b2 then
          Char.ofNat ((b - 192) * 64 + (b2 - 128)) :: utf8Lossy rest2
        else replChar :: utf8Lossy (b2 :: rest2)
    else if b ≤ 239 then
      match rest with
      | [] => [replChar]
      | b2 :: rest2 =>
        if utf8Cont3 b b2 then
          match rest2 with
          | [] => [replChar]
          | b3 :: rest3 =>
            if utf8Cont b3 then
              Char.ofNat ((b - 224) * 4096 + (b2 - 128) * 64 + (b3 - 128)) ::
                utf8Lossy rest3
            else replChar :: utf8Lossy (b3 :: rest3)
        else replChar :: utf8Lossy (b2 :: rest2)
    else if b ≤ 244 then
      match rest with
      | [] => [replChar]
      | b2 :: rest2 =>
        if utf8Cont4 b b2 then
          match rest2 with
          | [] => [replChar]
          | b3 :: rest3 =>
            if utf8Cont b3 then
              match rest3 with
              | [] => [replChar]
              | b4 :: rest4 =>
                if utf8Cont b4 then
                  Char.ofNat ((b - 240) * 262144 + (b2 - 128) * 4096 +
                               (b3 - 128) * 64 + (b4 - 128)) :: utf8Lossy rest4
                else replChar :: utf8Lossy (b4 :: rest4)
            else replChar :: utf8Lossy (b3 :: rest3)
        else replChar :: utf8Lossy (b2 :: rest2)
    else replChar :: utf8Lossy rest

/-- Rust's `str::replace("+", " ")` for a single-character pattern. -/
def plusToSpace (cs : List Char) : List Char :=
  cs.map (fun c => if c = '+' then ' ' else c)

/-- First space-separated token of a response line (`splitn(2, b' ')`,
first component). -/
def respOpTok (bytes : List Nat) : List Nat := bytes.takeWhile (· ≠ 32)

/-- Remainder of a response line after the first space (`splitn(2, b' ')`,
second component, defaulted to empty). -/
def respArgsTok (bytes : List Nat) : List Nat :=
  match bytes.dropWhile (· ≠ 32) with
  | [] => []
  | _ :: t => t

/-- `response_from_bytes` from `src/client/src/lib.rs`, parameterised over
the request-specific `OK` parser and over `MogError::from_bytes` (whose
source is not under `src/`): an `OK` first token defers to the request's
parser, an `ERR` first token to the error decoder, and any other first
token becomes `MogError::Other("Unknown response code", tok)` where `tok`
is the token percent-decoded, lossily UTF-8-decoded, with `+` replaced by
a space. -/
def responseFromBytes {ρ : Type} (parseOk : List Nat → MogResult ρ)
    (errFromBytes : List Nat → MogError) (bytes : List Nat) : MogResult ρ :=
  let op := respOpTok bytes
  if op = [79, 75] then parseOk (respArgsTok bytes)
  else if op = [69, 82, 82] then .error (errFromBytes (respArgsTok bytes))
  else
    .error (.Other "Unknown response code"
      (some (String.mk (plusToSpace (utf8Lossy (percentDecode op))))))

/-- Modelled from the spec: the "percent-decoded token" of section 4.1 — the
first token percent-decoded and (lossily) UTF-8-decoded, without the
form-decoding `+`-to-space replacement the client's source additionally
applies.  Used to compare the claim's wording against the code. -/
def percentDecodedToken (tok : List Nat) : String :=
  String.mk (utf8Lossy (percentDecode tok))

/-- Key list carried by a `list_keys` result (empty on error; the embedded
`list_keys` never errors). -/
def pageOf (r : MogResult ListKeysResponse) : List String :=
  match r with
  | .error _ => []
  | .ok resp => resp.keys

/-- Modelled from the spec: the client-driven pagination loop of section 8
(testable property 2) — issue `list_keys` with the given prefix, `after`
and `limit`, and while a page is non-empty feed its last key (the
`next_after` the tracker emits) back as the next `after`.  The fuel
argument bounds the number of pages. -/
def paginate (b : MemBackend) (dn : String) (pre : String) (limit : Nat) :
    Nat → String → List String
  | 0, _ => []
  | fuel + 1, after =>
    let page := pageOf (b.list_keys { domain := dn, pre := some pre, after := some after, limit := some limit })
    if page = [] then []
    else page ++ paginate b dn pre limit fuel (page.getLast?.getD "")

/-! ### Concrete states used to instantiate the theorems -/

/-- A storage base URL, `http://test.host/base_path` (the test fixture's
shape). -/
def baseUrl0 : Url := { base := "http://test.host", segs := ["base_path"] }

/-- A domain `td` holding reserved files under keys `a` and `b`. -/
def exDomainAB : MemDomain :=
  { name := "td", files := [("a", MemFileInfo.new 1 "a"), ("b", MemFileInfo.new 2 "b")] }

/-- A backend holding `exDomainAB`. -/
def exBackendAB : MemBackend :=
  { domains := [("td", exDomainAB)], empty_domain := MemDomain.new "", base_url := baseUrl0 }

/-- A backend whose domain `td` holds one reserved (never stored-to) file
under key `k`. -/
def exBackendReserved : MemBackend :=
  { domains := [("td", { name := "td", files := [("k", MemFileInfo.new 1 "k")] })],
    empty_domain := MemDomain.new "", base_url := baseUrl0 }

/-- A backend whose domain `td` holds one file under the empty key. -/
def exBackendEmptyKey : MemBackend :=
  { domains := [("td", { name := "td", files := [("", MemFileInfo.new 1 "")] })],
    empty_domain := MemDomain.new "", base_url := baseUrl0 }

/-- The backend state after `create_domain d`, `create_open d k1`,
`create_open d k2` on a fresh backend. -/
def exBackendTwoOpens : MemBackend :=
  ((((MemBackend.new baseUrl0).create_domain ⟨"d"⟩).2.create_open
      { domain := "d", cls := none, key := "k1", multi_dest := true, size := none }).2.create_open
    { domain := "d", cls := none, key := "k2", multi_dest := true, size := none }).2

/-- The `i`-th of 1001 single-character keys in ascending order. -/
def bigKey (i : Nat) : String := String.mk [Char.ofNat (256 + i)]

/-- 1001 reserved files under ascending keys. -/
def bigFiles : List (String × MemFileInfo) :=
  (List.range 1001).map (fun i => (bigKey i, MemFileInfo.new 1 (bigKey i)))

/-- A backend whose domain `big` holds 1001 keys. -/
def bigBackend : MemBackend :=
  { domains := [("big", { name := "big", files := bigFiles })],
    empty_domain := MemDomain.new "", base_url := baseUrl0 }

/-! ### Order-theoretic facts about the embedded string order -/

theorem ltB_trans : ∀ (a b c : List Char), ltB a b = true → ltB b c = true → ltB a c = true := by
  intro a
  induction a with
  | nil =>
    intro b c hab hbc
    cases b <;> cases c <;> simp_all [ltB]
  | cons x xs ih =>
    intro b c hab hbc
    cases b with
    | nil => simp [ltB] at hab
    | cons y ys =>
      cases c with
      | nil => simp [ltB] at hbc
      | cons z zs =>
        simp only [ltB, Bool.or_eq_true, Bool.and_eq_true, decide_eq_true_eq] at hab hbc ⊢
        rcases hab with h1 | ⟨hxy, h1⟩ <;> rcases hbc with h2 | ⟨hyz, h2⟩
        · exact Or.inl (Nat.lt_trans h1 h2)
        · subst hyz; exact Or.inl h1
        · subst hxy; exact Or.inl h2
        · subst hxy; exact Or.inr ⟨hyz, ih ys zs h1 h2⟩

theorem ltB_irrefl : ∀ (a : List Char), ltB a a = false := by
  intro a
  induction a with
  | nil => rfl
  | cons x xs ih => simp [ltB, ih, Nat.lt_irrefl]

theorem strLt_trans {a b c : String} (h1 : strLt a b = true) (h2 : strLt b c = true) :
    strLt a c = true :=
  ltB_trans a.data b.data c.data h1 h2

theorem strLt_irrefl (a : String) : strLt a a = false := ltB_irrefl a.data

theorem strLt_asymm {a b : String} (h : strLt a b = true) : strLt b a = false := by
  cases hba : strLt b a
  · rfl
  · have hc := strLt_trans h hba
    rw [strLt_irrefl] at hc
    exact absurd hc (by simp)

theorem strLt_ne {a b : String} (h : strLt a b = true) : a ≠ b := by
  intro he
  subst he
  rw [strLt_irrefl] at h
  exact absurd h (by simp)

theorem strLe_false_iff {a b : String} : strLe a b = false ↔ strLt b a = true := by
  simp [strLe]

theorem not_strLe (a b : String) : (!strLe a b) = strLt b a := by
  simp [strLe]

/-- A sorted association list is pairwise strictly ascending by key. -/
theorem sortedB_pairwise {β : Type} :
    ∀ {l : List (String × β)}, sortedB l = true →
      l.Pairwise (fun p q => strLt p.1 q.1 = true) := by
  intro l
  induction l with
  | nil => intro _; exact .nil
  | cons p t ih =>
    intro h
    cases t with
    | nil => exact List.pairwise_singleton _ _
    | cons q t2 =>
      simp only [sortedB, Bool.and_eq_true] at h
      have hp := ih h.2
      refine List.Pairwise.cons ?_ hp
      intro r hr
      rcases List.mem_cons.mp hr with rfl | hr2
      · exact h.1
      · exact strLt_trans h.1 ((List.pairwise_cons.mp hp).1 r hr2)

/-! ### List lemmas about sorted sequences -/

/-- On a list where the predicate can only go from true to false along the
pairwise relation, `dropWhile` coincides with filtering out the satisfied
elements. -/
theorem dropWhile_eq_filter_of_pairwise {α : Type} {R : α → α → Prop} {p : α → Bool}
    (hmono : ∀ x y, R x y → p x = false → p y = false) :
    ∀ {l : List α}, l.Pairwise R → l.dropWhile p = l.filter (fun x => !p x) := by
  intro l
  induction l with
  | nil => intro _; rfl
  | cons a t ih =>
    intro hp
    have hpt := List.pairwise_cons.mp hp
    cases ha : p a with
    | true =>
      rw [List.dropWhile_cons, List.filter_cons, ha]
      simp only [if_true, Bool.not_true, if_false]
      exact ih hpt.2
    | false =>
      have hall : ∀ x ∈ t, (!p x) = true := fun x hx => by
        rw [hmono a x (hpt.1 x hx) ha]; rfl
      rw [List.dropWhile_cons, List.filter_cons, ha]
      simp only [Bool.false_eq_true, if_false, Bool.not_false, if_true]
      rw [List.filter_eq_self.mpr hall]

theorem mem_of_getLast?_eq {α : Type} {l : List α} {a : α} (h : l.getLast? = some a) :
    a ∈ l := by
  rcases List.getLast?_eq_some_iff.mp h with ⟨ys, rfl⟩
  simp

/-- Dropping nothing when the predicate fails everywhere. -/
theorem dropWhile_eq_self_of_all {α : Type} {p : α → Bool} :
    ∀ {l : List α}, (∀ x ∈ l, p x = false) → l.dropWhile p = l := by
  intro l h
  cases l with
  | nil => rfl
  | cons a t =>
    rw [List.dropWhile_cons, h a (by simp)]
    simp

/-- In a strictly sorted list, the elements strictly above the last element
of `take n` are exactly `drop n`. -/
theorem filter_gt_getLast_take_eq_drop {α : Type} (r : α → α → Bool)
    (htrans : ∀ {x y z : α}, r x y = true → r y z = true → r x z = true)
    (hirr : ∀ x : α, r x x = false) :
    ∀ (l : List α) (n : Nat) (x : α), l.Pairwise (fun a b => r a b = true) →
      (l.take n).getLast? = some x → l.filter (fun y => r x y) = l.drop n := by
  intro l
  induction l with
  | nil => intro n x _ hx; simp at hx
  | cons a t ih =>
    intro n x hp hx
    cases n with
    | zero => simp at hx
    | succ m =>
      rw [List.take_succ_cons] at hx
      have hpt := List.pairwise_cons.mp hp
      cases htm : t.take m with
      | nil =>
        rw [htm] at hx
        have hxa : x = a := by simpa using hx.symm
        subst hxa
        rcases List.take_eq_nil_iff.mp htm with hm | ht
        · subst hm
          rw [List.filter_cons]
          simp only [hirr x, if_false]
          rw [List.filter_eq_self.mpr (fun y hy => hpt.1 y hy)]
          rfl
        · subst ht
          rw [List.filter_cons]
          simp [hirr x]
      | cons c ct =>
        rw [htm, List.getLast?_cons_cons] at hx
        have hxt : (t.take m).getLast? = some x := by rw [htm]; exact hx
        have hxmem : x ∈ t := List.take_subset m t (mem_of_getLast?_eq hxt)
        have hax : r a x = true := hpt.1 x hxmem
        have hxa : r x a = false := by
          cases hra : r x a
          · rfl
          · have hc := htrans hra hax
            rw [hirr] at hc
            exact absurd hc (by simp)
        rw [List.filter_cons]
        simp only [hxa, if_false]
        rw [ih m x hpt.2 hxt]
        rfl

/-! ### Lookup lemmas for the embedded maps -/

theorem lookup_cons {β : Type} (k pk : String) (v : β) (t : List (String × β)) :
    List.lookup k ((pk, v) :: t) = (if k == pk then some v else List.lookup k t) := by
  simp only [List.lookup]
  cases k == pk <;> simp

theorem lookup_eq_none_of_all {β : Type} (k : String) :
    ∀ (l : List (String × β)), (∀ p ∈ l, p.1 ≠ k) → l.lookup k = none := by
  intro l
  induction l with
  | nil => intro _; rfl
  | cons p t ih =>
    intro h
    obtain ⟨pk, pv⟩ := p
    have hp : pk ≠ k := h (pk, pv) (by simp)
    rw [lookup_cons, if_neg (by simp [Ne.symm hp])]
    exact ih (fun q hq => h q (by simp [hq]))

theorem lookup_insertSorted_self {β : Type} (k : String) (v : β) :
    ∀ (l : List (String × β)), (insertSorted k v l).lookup k = some v := by
  intro l
  induction l with
  | nil => rw [show insertSorted k v [] = [(k, v)] from rfl, lookup_cons, if_pos (by simp)]
  | cons p t ih =>
    obtain ⟨pk, pv⟩ := p
    simp only [insertSorted]
    by_cases h1 : strLt k pk = true
    · rw [if_pos h1, lookup_cons, if_pos (by simp)]
    · rw [if_neg h1]
      by_cases h2 : k = pk
      · rw [if_pos h2, lookup_cons, if_pos (by simp)]
      · rw [if_neg h2, lookup_cons, if_neg (by simp [h2])]
        exact ih

theorem lookup_insertSorted_ne {β : Type} (k k' : String) (v : β) (h : k' ≠ k) :
    ∀ (l : List (String × β)), (insertSorted k v l).lookup k' = l.lookup k' := by
  intro l
  induction l with
  | nil =>
    rw [show insertSorted k v [] = [(k, v)] from rfl, lookup_cons, if_neg (by simp [h])]
  | cons p t ih =>
    obtain ⟨pk, pv⟩ := p
    simp only [insertSorted]
    by_cases h1 : strLt k pk = true
    · rw [if_pos h1, lookup_cons, if_neg (by simp [h])]
    · rw [if_neg h1]
      by_cases h2 : k = pk
      · subst h2
        rw [if_pos rfl, lookup_cons, if_neg (by simp [h]), lookup_cons,
            if_neg (by simp [h])]
      · rw [if_neg h2, lookup_cons, lookup_cons]
        by_cases h3 : k' = pk
        · rw [if_pos (by simp [h3]), if_pos (by simp [h3])]
        · rw [if_neg (by simp [h3]), if_neg (by simp [h3])]
          exact ih

theorem lookup_removeSorted_ne {β : Type} (k k' : String) (h : k' ≠ k) :
    ∀ (l : List (String × β)), (removeSorted k l).lookup k' = l.lookup k' := by
  intro l
  induction l with
  | nil => rfl
  | cons p t ih =>
    obtain ⟨pk, pv⟩ := p
    simp only [removeSorted]
    by_cases h1 : pk = k
    · subst h1
      rw [if_pos rfl, lookup_cons, if_neg (by simp [h])]
    · rw [if_neg h1, lookup_cons, lookup_cons]
      by_cases h3 : k' = pk
      · rw [if_pos (by simp [h3]), if_pos (by simp [h3])]
      · rw [if_neg (by simp [h3]), if_neg (by simp [h3])]
        exact ih

theorem lookup_removeSorted_self {β : Type} (k : String) :
    ∀ {l : List (String × β)}, l.Pairwise (fun p q => strLt p.1 q.1 = true) →
      (removeSorted k l).lookup k = none := by
  intro l
  induction l with
  | nil => intro _; rfl
  | cons p t ih =>
    intro hp
    have hpt := List.pairwise_cons.mp hp
    obtain ⟨pk, pv⟩ := p
    simp only [removeSorted]
    by_cases h1 : pk = k
    · rw [if_pos h1]
      refine lookup_eq_none_of_all k t (fun q hq => ?_)
      have hlt := hpt.1 q hq
      rw [h1] at hlt
      exact (strLt_ne hlt).symm
    · rw [if_neg h1, lookup_cons, if_neg (by simp [Ne.symm h1])]
      exact ih hpt.2

theorem lookup_upsert_self {β : Type} (k : String) (v : β) :
    ∀ (l : List (String × β)), (upsert k v l).lookup k = some v := by
  intro l
  induction l with
  | nil => rw [show upsert k v [] = [(k, v)] from rfl, lookup_cons, if_pos (by simp)]
  | cons p t ih =>
    obtain ⟨pk, pv⟩ := p
    simp only [upsert]
    by_cases h1 : pk = k
    · rw [if_pos h1, lookup_cons, if_pos (by simp)]
    · rw [if_neg h1, lookup_cons, if_neg (by simp [Ne.symm h1])]
      exact ih

theorem lookup_upsert_ne {β : Type} (k k' : String) (v : β) (h : k' ≠ k) :
    ∀ (l : List (String × β)), (upsert k v l).lookup k' = l.lookup k' := by
  intro l
  induction l with
  | nil => rw [show upsert k v [] = [(k, v)] from rfl, lookup_cons, if_neg (by simp [h])]
  | cons p t ih =>
    obtain ⟨pk, pv⟩ := p
    simp only [upsert]
    by_cases h1 : pk = k
    · subst h1
      rw [if_pos rfl, lookup_cons, if_neg (by simp [h]), lookup_cons, if_neg (by simp [h])]
    · rw [if_neg h1, lookup_cons, lookup_cons]
      by_cases h3 : k' = pk
      · rw [if_pos (by simp [h3]), if_pos (by simp [h3])]
      · rw [if_neg (by simp [h3]), if_neg (by simp [h3])]
        exact ih

/-! ### The `list_keys` pipeline over key sequences -/

theorem pageOf_ok (keys : List String) : pageOf (.ok ⟨keys⟩) = keys := rfl

/-- Projecting the `list_keys` pipeline from file entries to bare keys. -/
theorem pipeline_keys (files : List (String × MemFileInfo)) (pre after : String) (n : Nat) :
    (((files.filter (fun p => strStartsWith p.1 pre)).dropWhile
        (fun p => strLe p.1 after)).take n).map (fun p => p.1) =
      (((files.map (fun p => p.1)).filter (fun k => strStartsWith k pre)).dropWhile
        (fun k => strLe k after)).take n := by
  have h1 : (fun p : String × MemFileInfo => strLe p.1 after) =
      ((fun k => strLe k after) ∘ (fun p : String × MemFileInfo => p.1)) := rfl
  have h2 : (fun p : String × MemFileInfo => strStartsWith p.1 pre) =
      ((fun k => strStartsWith k pre) ∘ (fun p : String × MemFileInfo => p.1)) := rfl
  rw [List.map_take, h1, h2, ← List.dropWhile_map, ← List.filter_map]

/-- The `list_keys` result, expressed over the domain's key sequence. -/
theorem list_keys_keys_eq (b : MemBackend) (dn : String) (d : MemDomain)
    (hd : b.domains.lookup dn = some d) (preA afterA : Option String) (limA : Option Nat) :
    b.list_keys ⟨dn, preA, afterA, limA⟩ =
      .ok ⟨(((d.files.map (fun p => p.1)).filter
               (fun k => strStartsWith k (preA.getD ""))).dropWhile
              (fun k => strLe k (afterA.getD ""))).take (limA.getD 1000)⟩ := by
  simp only [MemBackend.list_keys, MemBackend.domain, hd, Option.getD_some]
  rw [pipeline_keys]

/-- A single page over a sorted key sequence is a `take` of the keys
matching the prefix and lying strictly above `after`. -/
theorem page_take_filter (keys : List String) (pre after : String) (n : Nat)
    (hk : keys.Pairwise (fun a b => strLt a b = true)) :
    ((keys.filter (fun k => strStartsWith k pre)).dropWhile (fun k => strLe k after)).take n
      = ((keys.filter (fun k => strStartsWith k pre)).filter (fun k => strLt after k)).take n := by
  have hLP : (keys.filter (fun k => strStartsWith k pre)).Pairwise
      (fun a b => strLt a b = true) := hk.filter _
  have hmono : ∀ x y : String, (strLt x y = true) → strLe x after = false →
      strLe y after = false := by
    intro x y hxy hx
    rw [strLe_false_iff] at hx ⊢
    exact strLt_trans hx hxy
  rw [dropWhile_eq_filter_of_pairwise hmono hLP]
  rw [show (fun x => !strLe x after) = (fun k => strLt after k) from
        funext fun x => not_strLe x after]

/-- Feeding back the last key of each page enumerates, page after page,
exactly the keys matching the prefix that lie strictly above the starting
point. -/
theorem paginate_eq (b : MemBackend) (dn : String) (d : MemDomain) (K : List String)
    (pre : String) (limit : Nat) (hd : b.domains.lookup dn = some d) (hwf : d.WF)
    (hK : d.files.map (fun p => p.1) = K) (hlim : 1 ≤ limit) :
    ∀ (fuel : Nat) (after : String),
      ((K.filter (fun k => strStartsWith k pre)).filter (fun k => strLt after k)).length ≤ fuel →
      paginate b dn pre limit fuel after =
        (K.filter (fun k => strStartsWith k pre)).filter (fun k => strLt after k) := by
  have hkeys : K.Pairwise (fun a b => strLt a b = true) :=
    hK ▸ List.pairwise_map.mpr (sortedB_pairwise hwf)
  intro fuel
  induction fuel with
  | zero =>
    intro after h
    have h0 : (K.filter (fun k => strStartsWith k pre)).filter (fun k => strLt after k) = [] :=
      List.length_eq_zero.mp (Nat.le_zero.mp h)
    rw [show paginate b dn pre limit 0 after = [] from rfl, h0]
  | succ m ih =>
    intro after h
    simp only [paginate]
    rw [list_keys_keys_eq b dn d hd (some pre) (some after) (some limit), pageOf_ok]
    simp only [Option.getD_some]
    rw [hK, page_take_filter K pre after limit hkeys]
    by_cases hL : ((K.filter (fun k => strStartsWith k pre)).filter
        (fun k => strLt after k)).take limit = []
    · rw [if_pos hL]
      rcases List.take_eq_nil_iff.mp hL with h0 | hM0
      · omega
      · rw [hM0]
    · rw [if_neg hL]
      obtain ⟨last, hM⟩ := Option.isSome_iff_exists.mp (List.getLast?_isSome.mpr hL)
      rw [hM]
      simp only [Option.getD_some]
      have hMsorted : ((K.filter (fun k => strStartsWith k pre)).filter
          (fun k => strLt after k)).Pairwise (fun a b => strLt a b = true) :=
        (hkeys.filter _).filter _
      have hlast : ((K.filter (fun k => strStartsWith k pre)).filter
            (fun k => strLt after k)).filter (fun y => strLt last y) =
          ((K.filter (fun k => strStartsWith k pre)).filter
            (fun k => strLt after k)).drop limit :=
        filter_gt_getLast_take_eq_drop strLt (fun hxy hyz => strLt_trans hxy hyz)
          strLt_irrefl _ limit last hMsorted hM
      have hlast_mem : last ∈ (K.filter (fun k => strStartsWith k pre)).filter
          (fun k => strLt after k) :=
        List.take_subset _ _ (mem_of_getLast?_eq hM)
      have h_after_last : strLt after last = true := (List.mem_filter.mp hlast_mem).2
      have hMfilter : (K.filter (fun k => strStartsWith k pre)).filter
            (fun k => strLt last k) =
          ((K.filter (fun k => strStartsWith k pre)).filter
            (fun k => strLt after k)).filter (fun y => strLt last y) := by
        conv_rhs => rw [List.filter_filter]
        refine List.filter_congr (fun x _ => ?_)
        cases hx1 : strLt last x with
        | false => simp [hx1]
        | true => simp [hx1, strLt_trans h_after_last hx1]
      have hdroplen : ((K.filter (fun k => strStartsWith k pre)).filter
          (fun k => strLt last k)).length ≤ m := by
        rw [hMfilter, hlast, List.length_drop]
        omega
      rw [ih last hdroplen, hMfilter, hlast]
      exact List.take_append_drop limit _

/-! ### Claim theorems -/

/-- C4: for every `rename(from, to)` on a domain: if `to` is present the
result is the `key_exists` error and the domain is unchanged (so both keys
still resolve to their prior records); if both `to` and `from` are absent
the result is the `unknown_key` error with the domain unchanged; and when
`to` is absent but `from` present the rename succeeds. -/
theorem C4_rename_cases (d : MemDomain) (fromKey toKey : String) :
    ((d.files.lookup toKey).isSome = true →
       d.rename fromKey toKey = (.error (.KeyExists toKey), d)) ∧
    (d.files.lookup toKey = none → d.files.lookup fromKey = none →
       d.rename fromKey toKey = (.error (.UnknownKey fromKey), d)) ∧
    (d.files.lookup toKey = none → (d.files.lookup fromKey).isSome = true →
       (d.rename fromKey toKey).1 = .ok ()) := by
  refine ⟨?_, ?_, ?_⟩
  · intro h
    simp [MemDomain.rename, h]
  · intro ht hf
    simp [MemDomain.rename, ht, hf]
  · intro ht hf
    obtain ⟨fi, hfi⟩ := Option.isSome_iff_exists.mp hf
    simp [MemDomain.rename, ht, hfi]

/-- Witness for C4 on the concrete domain with keys `a` and `b`. -/
theorem C4_witness :
    exDomainAB.rename "a" "b" = (.error (.KeyExists "b"), exDomainAB) ∧
    exDomainAB.rename "x" "y" = (.error (.UnknownKey "x"), exDomainAB) ∧
    (exDomainAB.rename "a" "c").1 = .ok () :=
  ⟨(C4_rename_cases exDomainAB "a" "b").1 (by decide),
   (C4_rename_cases exDomainAB "x" "y").2.1 (by decide) (by decide),
   (C4_rename_cases exDomainAB "a" "c").2.2 (by decide) (by decide)⟩

/-- C5: a successful `rename(from, to)` moves the FileInfo record intact
except for its key field, which becomes `to`; `from` no longer resolves,
and every other key is unchanged. -/
theorem C5_rename_preserves (d : MemDomain) (fromKey toKey : String) (fi : MemFileInfo)
    (hwf : d.WF) (hto : d.files.lookup toKey = none)
    (hfrom : d.files.lookup fromKey = some fi) :
    (d.rename fromKey toKey).1 = .ok () ∧
    (d.rename fromKey toKey).2.files.lookup toKey = some { fi with key := toKey } ∧
    (d.rename fromKey toKey).2.files.lookup fromKey = none ∧
    ∀ k, k ≠ fromKey → k ≠ toKey →
      (d.rename fromKey toKey).2.files.lookup k = d.files.lookup k := by
  have hne : fromKey ≠ toKey := by
    intro he
    rw [he, hto] at hfrom
    exact Option.noConfusion hfrom
  have hren : d.rename fromKey toKey =
      (.ok (), { d with files := insertSorted toKey { fi with key := toKey }
                          (removeSorted fromKey d.files) }) := by
    simp [MemDomain.rename, hto, hfrom]
  rw [hren]
  refine ⟨rfl, lookup_insertSorted_self toKey _ _, ?_, ?_⟩
  · rw [lookup_insertSorted_ne toKey fromKey _ hne]
    exact lookup_removeSorted_self fromKey (sortedB_pairwise hwf)
  · intro k hkf hkt
    rw [lookup_insertSorted_ne toKey k _ hkt, lookup_removeSorted_ne fromKey k hkf]

/-- Witness for C5: renaming `a` to `c` in the concrete domain. -/
theorem C5_witness :
    (exDomainAB.rename "a" "c").1 = .ok () ∧
    (exDomainAB.rename "a" "c").2.files.lookup "c" =
      some { MemFileInfo.new 1 "a" with key := "c" } ∧
    (exDomainAB.rename "a" "c").2.files.lookup "a" = none ∧
    (exDomainAB.rename "a" "c").2.files.lookup "b" = exDomainAB.files.lookup "b" := by
  have h := C5_rename_preserves exDomainAB "a" "c" (MemFileInfo.new 1 "a")
    (by decide) (by decide) (by decide)
  exact ⟨h.1, h.2.1, h.2.2.1, h.2.2.2 "b" (by decide) (by decide)⟩

/-- C10: a `delete` or `rename` naming a domain absent from the backend
returns `unknown_key` but, through `domain_mut`'s `or_insert`, leaves a new
empty domain behind in the domain map. -/
theorem C10_absent_domain_inserted (b : MemBackend) (dn key fromKey toKey : String)
    (hd : b.domains.lookup dn = none) :
    ((b.delete ⟨dn, key⟩).1 = .error (.UnknownKey key) ∧
     (b.delete ⟨dn, key⟩).2.domains.lookup dn = some (MemDomain.new dn)) ∧
    ((b.rename ⟨dn, fromKey, toKey⟩).1 = .error (.UnknownKey fromKey) ∧
     (b.rename ⟨dn, fromKey, toKey⟩).2.domains.lookup dn = some (MemDomain.new dn)) := by
  have hmut : b.domainMutGet dn = MemDomain.new dn := by
    simp [MemBackend.domainMutGet, hd]
  constructor
  · constructor
    · simp [MemBackend.delete, hmut, MemDomain.remove_file, MemDomain.new, removeSorted]
    · simp only [MemBackend.delete, hmut, MemDomain.remove_file, MemBackend.putDomain]
      exact lookup_upsert_self dn _ b.domains
  · constructor
    · simp [MemBackend.rename, hmut, MemDomain.rename, MemDomain.new]
    · simp only [MemBackend.rename, hmut, MemDomain.rename, MemBackend.putDomain]
      exact lookup_upsert_self dn _ b.domains

/-- Witness for C10 on a fresh backend with no domains. -/
theorem C10_witness :
    (((MemBackend.new baseUrl0).delete ⟨"nd", "k"⟩).1 = .error (.UnknownKey "k") ∧
     ((MemBackend.new baseUrl0).delete ⟨"nd", "k"⟩).2.domains.lookup "nd" =
       some (MemDomain.new "nd")) ∧
    (((MemBackend.new baseUrl0).rename ⟨"nd", "a", "b"⟩).1 = .error (.UnknownKey "a") ∧
     ((MemBackend.new baseUrl0).rename ⟨"nd", "a", "b"⟩).2.domains.lookup "nd" =
       some (MemDomain.new "nd")) :=
  C10_absent_domain_inserted (MemBackend.new baseUrl0) "nd" "k" "a" "b" (by decide)

/-- C9: after a successful `store_bytes_content(domain, key, bytes)`,
`get_content` yields exactly `bytes` and `file_info` reports `length`
equal to the number of stored bytes. -/
theorem C9_store_get (b : MemBackend) (dn key : String) (bytes : List Nat) (now : Nat)
    (hok : (b.store_bytes_content dn key bytes now).1 = .ok ()) :
    (b.store_bytes_content dn key bytes now).2.get_content dn key = .ok bytes ∧
    ∃ resp, (b.store_bytes_content dn key bytes now).2.file_info ⟨dn, key⟩ = .ok resp ∧
      resp.length = bytes.length := by
  rcases hfi : (b.domainMutGet dn).files.lookup key with _ | fi
  · exfalso
    simp only [MemBackend.store_bytes_content] at hok
    rw [hfi] at hok
    simp at hok
  · have hS : b.store_bytes_content dn key bytes now =
        (.ok (), b.putDomain dn { b.domainMutGet dn with
          files := insertSorted key { fi with size := some bytes.length,
                                              content := some bytes,
                                              mtime := some now }
                     (b.domainMutGet dn).files }) := by
      simp only [MemBackend.store_bytes_content]
      rw [hfi]
    rw [hS]
    have hdom : ∀ d2 : MemDomain, (b.putDomain dn d2).domains.lookup dn = some d2 :=
      fun d2 => lookup_upsert_self dn d2 b.domains
    constructor
    · simp only [MemBackend.get_content, MemBackend.domain, MemBackend.putDomain,
        lookup_upsert_self, Option.getD_some, MemDomain.file, lookup_insertSorted_self]
    · refine ⟨{ fid := fi.fid, devcount := 1, length := bytes.length, domain := dn,
                cls := "default", key := fi.key }, ?_, rfl⟩
      simp only [MemBackend.file_info, MemBackend.domain, MemBackend.putDomain,
        lookup_upsert_self, Option.getD_some, MemDomain.file, lookup_insertSorted_self]

/-- Witness for C9: storing two bytes over the reserved file `k`. -/
theorem C9_witness :
    ((exBackendReserved.store_bytes_content "td" "k" [1, 2] 5).2.get_content "td" "k" =
      .ok [1, 2]) ∧
    ∃ resp, (exBackendReserved.store_bytes_content "td" "k" [1, 2] 5).2.file_info
        ⟨"td", "k"⟩ = .ok resp ∧ resp.length = 2 :=
  C9_store_get exBackendReserved "td" "k" [1, 2] 5 (by decide)

/-- C3 counterexample: `file_info` on a reserved file (no `size`, no
`mtime`) succeeds with `length = 0` instead of returning `no_content`. -/
theorem C3_counterexample :
    exBackendReserved.file_info ⟨"td", "k"⟩ =
      .ok { fid := 1, devcount := 1, length := 0, domain := "td",
            cls := "default", key := "k" } ∧
    exBackendReserved.file_info ⟨"td", "k"⟩ ≠ .error (.NoContent "k") := by
  decide

/-- C3 (amended): `file_info` returns `unknown_key` for an absent key and
otherwise always succeeds — regardless of whether `size` and `mtime` are
populated — reporting `length = size.unwrap_or(0)`; it never returns
`no_content` (only the storage-side `file_metadata` does). -/
theorem C3_file_info_amended (b : MemBackend) (req : FileInfoReq) :
    b.file_info req =
      (match ((b.domains.lookup req.domain).getD b.empty_domain).files.lookup req.key with
       | none => .error (.UnknownKey req.key)
       | some fi => .ok { fid := fi.fid, devcount := 1, length := fi.size.getD 0,
                          domain := req.domain, cls := "default", key := fi.key }) ∧
    ∀ s, b.file_info req ≠ .error (.NoContent s) := by
  have heq : b.file_info req =
      (match ((b.domains.lookup req.domain).getD b.empty_domain).files.lookup req.key with
       | none => .error (.UnknownKey req.key)
       | some fi => .ok { fid := fi.fid, devcount := 1, length := fi.size.getD 0,
                          domain := req.domain, cls := "default", key := fi.key }) := rfl
  refine ⟨heq, fun s he => ?_⟩
  rw [heq] at he
  cases hfi : ((b.domains.lookup req.domain).getD b.empty_domain).files.lookup req.key with
  | none => rw [hfi] at he; simp at he
  | some fi => rw [hfi] at he; simp at he

/-- Witness for C3's amended statement at an absent key. -/
theorem C3_witness :
    exBackendReserved.file_info ⟨"td", "x"⟩ = .error (.UnknownKey "x") ∧
    exBackendReserved.file_info ⟨"td", "x"⟩ ≠ .error (.NoContent "x") := by
  have h := C3_file_info_amended exBackendReserved ⟨"td", "x"⟩
  refine ⟨?_, h.2 "x"⟩
  rw [h.1]
  decide

/-- C6: the fid seeded from the domain count is reused — after
`create_domain d`, the opens of `k1` and `k2` both record fid 2 under
different keys, violating fid uniqueness. -/
theorem C6_fid_reused :
    ((exBackendTwoOpens.domains.lookup "d").bind
        (fun d => d.files.lookup "k1")).map (fun fi => fi.fid) = some 2 ∧
    ((exBackendTwoOpens.domains.lookup "d").bind
        (fun d => d.files.lookup "k2")).map (fun fi => fi.fid) = some 2 ∧
    ("k1" : String) ≠ "k2" := by
  decide

/-- C1: the `Tracker::create_open` handler renders `dev_count`, `devid_1`
and `path_1` for the spec's example request but no `fid` argument at
all. -/
theorem C1_create_open_no_fid :
    trackerCreateOpen [("domain", "td"), ("key", "a/b")]
        (.ok [urlForKey baseUrl0 "td" "a/b"]) =
      .ok [("dev_count", "1"), ("devid_1", "1"),
           ("path_1", "http://test.host/base_path/d/td/k/a/b")] ∧
    (((trackerCreateOpen [("domain", "td"), ("key", "a/b")]
        (.ok [urlForKey baseUrl0 "td" "a/b"])).toOption.getD []).all
      (fun p => p.1 != "fid")) = true := by
  decide

theorem strStartsWith_empty (s : String) : strStartsWith s "" = true := rfl

theorem bigKey_le_empty_false (i : Nat) : strLe (bigKey i) "" = false := rfl

/-- C7 counterexample: a `list_keys` with `limit = 1001` over 1001 keys
returns all 1001 of them, exceeding the claimed cap `min 1001 1000`. -/
theorem C7_counterexample :
    bigBackend.list_keys ⟨"big", none, none, some 1001⟩ =
      .ok ⟨bigFiles.map (fun p => p.1)⟩ ∧
    (bigFiles.map (fun p => p.1)).length = 1001 ∧
    ¬(1001 ≤ min 1001 1000) := by
  have hlen : (bigFiles.map (fun p => p.1)).length = 1001 := by
    rw [List.length_map]
    simp [bigFiles]
  refine ⟨?_, hlen, by norm_num⟩
  rw [list_keys_keys_eq bigBackend "big" { name := "big", files := bigFiles } rfl
      none none (some 1001)]
  simp only [Option.getD_none, Option.getD_some]
  have hall : ∀ k ∈ bigFiles.map (fun p => p.1), strLe k "" = false := by
    intro k hk
    obtain ⟨p, hp, rfl⟩ := List.mem_map.mp hk
    simp only [bigFiles] at hp
    obtain ⟨i, _, rfl⟩ := List.mem_map.mp hp
    exact bigKey_le_empty_false i
  rw [List.filter_eq_self.mpr (fun a _ => strStartsWith_empty a),
      dropWhile_eq_self_of_all hall, List.take_of_length_le (le_of_eq hlen)]

/-- C7 (amended): `list_keys` always succeeds and returns at most
`limit.unwrap_or(1000)` keys — 1000 is only the default for an absent
limit, not a cap on a provided one. -/
theorem C7_limit_amended (b : MemBackend) (req : ListKeysReq) :
    ∃ ks, b.list_keys req = .ok ⟨ks⟩ ∧ ks.length ≤ req.limit.getD 1000 := by
  refine ⟨_, rfl, ?_⟩
  rw [List.length_map, List.length_take]
  exact min_le_left _ _

/-- C8 counterexample: for the response line `FOO+BAR x`, the client's
payload is the form-decoded token `FOO BAR`, not the percent-decoded
token `FOO+BAR` the claim states. -/
theorem C8_counterexample :
    responseFromBytes (fun _ => (.ok () : MogResult Unit)) (fun _ => MogError.BadResponse)
        [70, 79, 79, 43, 66, 65, 82, 32, 120] =
      .error (.Other "Unknown response code" (some "FOO BAR")) ∧
    percentDecodedToken [70, 79, 79, 43, 66, 65, 82] = "FOO+BAR" ∧
    ("FOO BAR" : String) ≠ "FOO+BAR" := by
  decide

/-- C8 (amended): when the first space-separated token of a response line
is neither `OK` nor `ERR`, the client produces the unknown-response
protocol error — `MogError::Other("Unknown response code", tok)` — whose
payload is the first token percent-decoded, lossily UTF-8-decoded and with
`+` replaced by a space (form decoding), for every request parser and
error decoder. -/
theorem C8_unknown_response {ρ : Type} (parseOk : List Nat → MogResult ρ)
    (errFromBytes : List Nat → MogError) (bytes : List Nat)
    (hok : respOpTok bytes ≠ [79, 75]) (herr : respOpTok bytes ≠ [69, 82, 82]) :
    responseFromBytes parseOk errFromBytes bytes =
      .error (.Other "Unknown response code"
        (some (String.mk (plusToSpace (utf8Lossy (percentDecode (respOpTok bytes))))))) := by
  simp only [responseFromBytes]
  rw [if_neg hok, if_neg herr]

/-- Witness for C8 on the one-byte response line `X`. -/
theorem C8_witness :
    responseFromBytes (fun _ => (.ok () : MogResult Unit)) (fun _ => MogError.BadResponse)
        [88] = .error (.Other "Unknown response code" (some "X")) := by
  rw [C8_unknown_response (fun _ => (.ok () : MogResult Unit)) (fun _ => MogError.BadResponse)
      [88] (by decide) (by decide)]
  decide

/-- C2 counterexample: a domain holding only the empty key.  The first
page drops it (`skip_while key ≤ after` with the default `after = ""`),
so pagination terminates empty while the key list matching the empty
prefix is `[""]`. -/
theorem C2_counterexample :
    paginate exBackendEmptyKey "td" "" 1 2 "" = [] ∧
    (((exBackendEmptyKey.domains.lookup "td").getD (MemDomain.new "td")).files.map
        (fun p => p.1)).filter (fun k => strStartsWith k "") = [""] ∧
    ([] : List String) ≠ [""] := by
  decide

/-- C2 (amended): a single `list_keys` returns the domain's keys in
ascending order, dropping every key at most `after`, keeping only those
starting with the prefix, truncated to the limit; and for every `limit ≥ 1`
the pages obtained by feeding back the last key of each page concatenate to
the strictly-ascending sequence of those domain keys matching the prefix
that are strictly greater than the empty string. -/
theorem C2_list_keys_amended (b : MemBackend) (dn : String) (d : MemDomain)
    (pre0 : String) (limit fuel : Nat) (hd : b.domains.lookup dn = some d) (hwf : d.WF)
    (hlim : 1 ≤ limit) (hfuel : d.files.length ≤ fuel) :
    (∀ (preA afterA : Option String) (limA : Option Nat),
       b.list_keys ⟨dn, preA, afterA, limA⟩ =
         .ok ⟨(((d.files.map (fun p => p.1)).filter
                  (fun k => !strLe k (afterA.getD ""))).filter
                 (fun k => strStartsWith k (preA.getD ""))).take (limA.getD 1000)⟩) ∧
    paginate b dn pre0 limit fuel "" =
      ((d.files.map (fun p => p.1)).filter (fun k => strStartsWith k pre0)).filter
        (fun k => strLt "" k) ∧
    (paginate b dn pre0 limit fuel "").Pairwise (fun a c => strLt a c = true) := by
  have hkeys : (d.files.map (fun p => p.1)).Pairwise (fun a c => strLt a c = true) :=
    List.pairwise_map.mpr (sortedB_pairwise hwf)
  have hpag : paginate b dn pre0 limit fuel "" =
      ((d.files.map (fun p => p.1)).filter (fun k => strStartsWith k pre0)).filter
        (fun k => strLt "" k) := by
    refine paginate_eq b dn d _ pre0 limit hd hwf rfl hlim fuel "" ?_
    calc (((d.files.map (fun p => p.1)).filter (fun k => strStartsWith k pre0)).filter
            (fun k => strLt "" k)).length
        ≤ ((d.files.map (fun p => p.1)).filter (fun k => strStartsWith k pre0)).length :=
          List.length_filter_le _ _
      _ ≤ (d.files.map (fun p => p.1)).length := List.length_filter_le _ _
      _ = d.files.length := List.length_map _ _
      _ ≤ fuel := hfuel
  refine ⟨?_, hpag, ?_⟩
  · intro preA afterA limA
    rw [list_keys_keys_eq b dn d hd preA afterA limA,
        page_take_filter _ _ _ _ hkeys]
    have hswap : ((d.files.map (fun p => p.1)).filter
          (fun k => strStartsWith k (preA.getD ""))).filter
            (fun k => strLt (afterA.getD "") k) =
        ((d.files.map (fun p => p.1)).filter
          (fun k => !strLe k (afterA.getD ""))).filter
            (fun k => strStartsWith k (preA.getD "")) := by
      rw [List.filter_filter, List.filter_filter]
      refine List.filter_congr (fun x _ => ?_)
      rw [not_strLe]
      exact Bool.and_comm _ _
    rw [hswap]
  · rw [hpag]
    exact (hkeys.filter _).filter _

/-- Witness for C2 on the two-key domain, paging with limit 1. -/
theorem C2_witness :
    exBackendAB.list_keys ⟨"td", none, none, none⟩ =
      .ok ⟨(((exDomainAB.files.map (fun p => p.1)).filter
               (fun k => !strLe k "")).filter (fun k => strStartsWith k "")).take 1000⟩ ∧
    paginate exBackendAB "td" "" 1 2 "" =
      ((exDomainAB.files.map (fun p => p.1)).filter (fun k => strStartsWith k "")).filter
        (fun k => strLt "" k) := by
  have h := C2_list_keys_amended exBackendAB "td" exDomainAB "" 1 2
    (by decide) (by decide) (by decide) (by decide)
  exact ⟨h.1 none none none, h.2.1⟩
